import Mathlib

/-!
# Shallow embedding of `qp-trie-rs` (`src/lib.rs`)

This file embeds the qp-trie implementation — the `Sparse` compressed
child container, the `Leaf`/`Internal`/`Node` representation, and
`Trie::insert` — as executable Lean definitions, and proves or refutes
the specification claims about it.

Modelling conventions:
* Rust `u8` bytes and the `u32` presence bitmap become `Nat`; every
  bitwise operation used (`>>`, `&`, `^`, `count_ones`) agrees with the
  fixed-width Rust operation on the value ranges the program produces
  (bitmap bits only ever live below bit 16, shift amounts below 16).
* Keys (`K: AsRef<[u8]>`) become `List Nat` of byte values.
* Panicking partial operations (`Vec` indexing, `copy_from_slice` with
  mismatched lengths) are modelled with `Option` / `getD`, with the
  panic case noted at each definition.
* In-place mutation through `&mut` references becomes explicit
  state-passing: a Rust method `fn f(&mut self, ...) -> R` becomes a
  Lean function `f : S → ... → S × R` (or `S → ... → S` when `R = ()`).
-/

namespace QpTrie

/-- Embeds `fn nybble<K: AsRef<[u8]>>(idx: usize, key: K) -> u8`:
byte `idx >> 1` of the key, low nybble when `idx` is even, high nybble
when `idx` is odd.  Rust indexes `key.as_ref()[idx >> 1]` and panics
out of range; we model the out-of-range byte as `0` via `getD`. -/
def nybble (idx : Nat) (key : List Nat) : Nat :=
  let byte := key.getD (idx >>> 1) 0
  if idx &&& 1 = 0 then byte &&& 0x0F else byte >>> 4

/-- Number of set bits of a natural number; embeds `u32::count_ones`
(they agree on all values below `2^32`, and the program only ever
stores bits below bit 16 in a bitmap). -/
def countOnes (n : Nat) : Nat :=
  if n = 0 then 0 else n % 2 + countOnes (n / 2)

/-- Embeds `pub struct Sparse<T> { index: u32, data: Vec<T> }`. -/
structure Sparse (T : Type) where
  index : Nat
  data : List T

namespace Sparse

variable {T : Type}

/-- Embeds `Sparse::new`: empty bitmap, empty backing vector. -/
def new : Sparse T :=
  { index := 0, data := [] }

/-- Embeds `Sparse::contains`: `(self.index >> idx) & 1 == 1`. -/
def contains (s : Sparse T) (idx : Nat) : Bool :=
  (s.index >>> idx) &&& 1 = 1

/-- Embeds `Sparse::actual`:
`self.data.len() - (self.index >> idx).count_ones() as usize`.
`Nat` subtraction truncates at zero where the Rust `usize` subtraction
would underflow (debug panic / release wraparound); the claims proved
below only use states where no underflow occurs. -/
def actual (s : Sparse T) (idx : Nat) : Nat :=
  s.data.length - countOnes (s.index >>> idx)

/-- Embeds `Sparse::get`: `Some(&self.data[self.actual(idx)])` when
`contains(idx)`, else `None`.  The Rust indexing `self.data[...]`
panics when `actual idx` is out of range; that case is modelled as
`none` via `List.get?`. -/
def get (s : Sparse T) (idx : Nat) : Option T :=
  if s.contains idx then s.data.get? (s.actual idx) else none

/-- Embeds `Sparse::get_mut`.  In the source it returns
`Option<&mut T>` with exactly the same presence logic as `get`; in the
functional model the looked-up element is returned by value and
write-back through the reference is modelled by `Sparse.set`. -/
def get_mut (s : Sparse T) (idx : Nat) : Option T :=
  if s.contains idx then s.data.get? (s.actual idx) else none

/-- Models a write through the `&mut T` reference handed out by
`Sparse::get_mut`: replaces the element at dense position
`actual idx`. -/
def set (s : Sparse T) (idx : Nat) (elt : T) : Sparse T :=
  { s with data := s.data.set (s.actual idx) elt }

/-- Embeds `Sparse::insert_fresh`:
`let actual = self.actual(idx); self.data.insert(actual, elt);`.
Note that the source never touches `self.index`: the presence bitmap
is left unchanged (the `debug_assert!(!self.contains(idx))` is a
no-op proposition, not a state change).  `Vec::insert` panics when
`actual > len`; `List.insertIdx` leaves the list unchanged in that
case, and the claims below only evaluate it in range. -/
def insert_fresh (s : Sparse T) (idx : Nat) (elt : T) : Sparse T :=
  { s with data := s.data.insertIdx (s.actual idx) elt }

end Sparse

/-- Embeds `Leaf::new::<L>(key_bytes, val)` for a fixed-size key type
`K` of `keySize` bytes.  The source does
`mem::uninitialized()` followed by `key.as_mut().copy_from_slice(key_bytes)`;
`copy_from_slice` panics unless the source slice length equals the
destination buffer length, so construction succeeds (returning the
fully-copied buffer) exactly when `key_bytes.len() == keySize`, and
fails (panic, modelled as `none`) otherwise — in particular no leaf
with residual uninitialized bytes is ever returned. -/
def leafNew {V : Type} (keySize : Nat) (key_bytes : List Nat) (val : V) :
    Option (List Nat × V) :=
  if key_bytes.length = keySize then some (key_bytes, val) else none

/-- Embeds `enum Node<K, V> { Leaf(Leaf<K, V>), Internal(Internal<K, V>) }`
with `Leaf { key: K, val: V }` and
`Internal { index: usize, nybbles: Sparse<Node<K, V>> }` inlined into
the two constructors (keys are byte lists, see the header). -/
inductive Node (V : Type) : Type where
  | leaf (key : List Nat) (val : V)
  | internal (index : Nat) (nybbles : Sparse (Node V))

namespace Node

variable {V : Type}

/-- Embeds `Node::get_closest_node_mut`, with the body of
`Node::get_closer_node_mut` inlined (the source splits them only to
appease the borrow checker; `get_closest` forwards `get_closer`'s
`Some` result and returns `(self, index)` on `None`).  On a `Leaf`,
`get_closer` returns `Some((leaf, index))` immediately; on an
`Internal`, it follows `nybbles.get_mut(nybble(internal.index, key))`
when that child is present and recurses with the internal's branch
index, and otherwise the descent stops at this internal node with the
caller's `index`. -/
def getClosestNode (n : Node V) (key : List Nat) (index : Nat) :
    Node V × Nat :=
  match n with
  | leaf k v => (leaf k v, index)
  | internal i nyb =>
    match h : nyb.get_mut (nybble i key) with
    | some child => getClosestNode child key i
    | none => (internal i nyb, index)
termination_by sizeOf n
decreasing_by
  simp only [Sparse.get_mut] at h
  split at h
  · have hmem : child ∈ nyb.data := List.get?_mem h
    have h1 : sizeOf child < sizeOf nyb.data := List.sizeOf_lt_of_mem hmem
    cases nyb
    dsimp only at h1
    simp only [internal.sizeOf_spec, Sparse.mk.sizeOf_spec]
    omega
  · exact absurd h (by simp)

/-- Embeds `Node::get_closer_node_mut` itself (cf. `getClosestNode`,
which inlines it): `Some((self, index))` on a leaf, and on an internal
node the recursive descent mapped over the present child. -/
def getCloserNode (n : Node V) (key : List Nat) (index : Nat) :
    Option (Node V × Nat) :=
  match n with
  | leaf k v => some (leaf k v, index)
  | internal i nyb =>
    (nyb.get_mut (nybble i key)).map fun child => getClosestNode child key i

/-- All keys held by leaves of the subtree, in dense-vector order:
the observable "which (key, value) leaves exist" content of a node. -/
def keys : Node V → List (List Nat)
  | leaf k _ => [k]
  | internal _ nyb => nyb.data.attach.flatMap fun c => c.val.keys
termination_by n => sizeOf n
decreasing_by
  have h1 : sizeOf c.val < sizeOf nyb.data := List.sizeOf_lt_of_mem c.property
  cases nyb
  dsimp only at h1
  simp only [Node.internal.sizeOf_spec, Sparse.mk.sizeOf_spec]
  omega

end Node

/-- The prefix invariant claimed for internal nodes: below every
`Internal` node with branch index `i`, all reachable leaf keys agree
pairwise on every nybble index strictly below `i` (checked recursively
for every internal node of the subtree). -/
def Node.prefixInvariant {V : Type} : Node V → Bool
  | Node.leaf _ _ => true
  | Node.internal i nyb =>
    (nyb.data.attach.all fun c => c.val.prefixInvariant) &&
    (let ks := (Node.internal i nyb).keys
     ks.all fun k1 => ks.all fun k2 =>
       (List.range i).all fun j => nybble j k1 == nybble j k2)
termination_by n => sizeOf n
decreasing_by
  have h1 : sizeOf c.val < sizeOf nyb.data := List.sizeOf_lt_of_mem c.property
  cases nyb
  dsimp only at h1
  simp only [Node.internal.sizeOf_spec, Sparse.mk.sizeOf_spec]
  omega

/-- Embeds the byte-comparison `loop { ... }` inside `Trie::insert`'s
`Node::Leaf` arm.  Starting from byte position `i` (the `least_index`
the descent produced, used by the source directly as a byte index):
* `i >= min_length` with equal key lengths ⇒ the keys are identical;
  the source overwrites the leaf value and returns early — modelled as
  `none`;
* `i >= min_length` with different lengths ⇒ `break i` — `some i`;
* a nonzero byte XOR `difference` at `i` ⇒
  `break (if difference & 0xF0 == 0 { i + 1 } else { i })`;
* otherwise `i += 1` and loop. -/
def splitLoop (search_key leaf_key : List Nat) (min_length i : Nat) :
    Option Nat :=
  if i ≥ min_length then
    if search_key.length = leaf_key.length then none else some i
  else
    let difference := search_key.getD i 0 ^^^ leaf_key.getD i 0
    if difference ≠ 0 then
      some (if difference &&& 0xF0 = 0 then i + 1 else i)
    else
      splitLoop search_key leaf_key min_length (i + 1)
termination_by min_length - i

/-- Embeds the non-empty-root branch of `Trie::insert`, with the
descent (`get_closest_node_mut`) fused with the in-place update the
source performs through the returned `&mut` reference; `index` is the
`least_index` accumulator of the descent (initially `0`).  Returns the
rewritten subtree and the `Option<V>` return value of `insert`.

* At a leaf (the descent's `Node::Leaf` result), the comparison loop
  (`splitLoop`) either reports an exact match — the source replaces
  `leaf.val` and returns the displaced value — or yields a split index
  `idx`: the leaf node is replaced by `Internal::new(idx)` into which
  `insert_fresh_leaf` puts the new leaf `Leaf::new(key, val)` and then
  the old leaf (`insert_fresh_leaf` stores a leaf at the nybble of its
  key at the internal's branch index, i.e.
  `nybbles.insert_fresh(nybble(self.index, &leaf.key), Node::Leaf(leaf))`).
* At an internal node whose child for `nybble(internal.index, key)` is
  present, the source's descent continues there (mutating that child
  through `get_mut`; modelled by `Sparse.set` write-back).
* At an internal node with no child for that nybble, the descent stops
  and the source's `Node::Internal` arm runs:
  `internal.nybbles.insert_fresh(nybble(internal.index, &key),
  Node::Leaf(Leaf::new(key, val)))`, returning `None`. -/
def insertNode {V : Type} (n : Node V) (key : List Nat) (val : V)
    (index : Nat) : Node V × Option V :=
  match n with
  | Node.leaf leaf_key leaf_val =>
    let search_key := key
    let min_length := min search_key.length leaf_key.length
    match splitLoop search_key leaf_key min_length index with
    | none => (Node.leaf leaf_key val, some leaf_val)
    | some idx =>
      let fresh : Sparse (Node V) := Sparse.new
      let fresh := fresh.insert_fresh (nybble idx key) (Node.leaf key val)
      let fresh := fresh.insert_fresh (nybble idx leaf_key)
        (Node.leaf leaf_key leaf_val)
      (Node.internal idx fresh, none)
  | Node.internal i nyb =>
    match h : nyb.get_mut (nybble i key) with
    | some child =>
      let r := insertNode child key val i
      (Node.internal i (nyb.set (nybble i key) r.1), r.2)
    | none =>
      (Node.internal i
        (nyb.insert_fresh (nybble i key) (Node.leaf key val)), none)
termination_by sizeOf n
decreasing_by
  simp only [Sparse.get_mut] at h
  split at h
  · have hmem : child ∈ nyb.data := List.get?_mem h
    have h1 : sizeOf child < sizeOf nyb.data := List.sizeOf_lt_of_mem hmem
    cases nyb
    dsimp only at h1
    simp only [Node.internal.sizeOf_spec, Sparse.mk.sizeOf_spec]
    omega
  · exact absurd h (by simp)

/-- Embeds `pub struct Trie<K, V> { root: Option<Node<K, V>> }`. -/
structure Trie (V : Type) where
  root : Option (Node V)

namespace Trie

variable {V : Type}

/-- Embeds `Trie::new`: empty root. -/
def new : Trie V :=
  { root := none }

/-- Embeds `Trie::insert(key, val) -> Option<V>`: an empty root
becomes a singleton leaf (returning `None`); otherwise the descent /
rewrite of `insertNode` runs from the root with `least_index = 0`. -/
def insert (t : Trie V) (key : List Nat) (val : V) : Trie V × Option V :=
  match t.root with
  | some node =>
    let r := insertNode node key val 0
    ({ root := some r.1 }, r.2)
  | none => ({ root := some (Node.leaf key val) }, none)

/-- The leaf keys of the whole trie, in dense-vector order. -/
def keys (t : Trie V) : List (List Nat) :=
  match t.root with
  | some node => node.keys
  | none => []

/-- The branch index of the root when the root is an `Internal` node:
the coarsest observable piece of tree shape. -/
def rootBranchIndex (t : Trie V) : Option Nat :=
  match t.root with
  | some (Node.internal i _) => some i
  | _ => none

/-- The prefix invariant (`Node.prefixInvariant`) holds of every
internal node of the trie. -/
def wellFormed (t : Trie V) : Bool :=
  match t.root with
  | some node => node.prefixInvariant
  | none => true

end Trie

/-! ## Helper lemmas -/

/-- One unfolding of `countOnes`, valid for every `n` (for `n = 0`
both sides are `0`). -/
theorem countOnes_unfold (n : Nat) : countOnes n = n % 2 + countOnes (n / 2) := by
  rw [countOnes]
  split
  · subst n
    simp [countOnes]
  · rfl

/-- Evaluation lemma: `countOnes 0 = 0`. -/
theorem countOnes_zero : countOnes 0 = 0 := by
  simp [countOnes]

/-- Splitting the bit count of `n` at bit position `idx`: bits below
`idx` (`n % 2 ^ idx`) plus bits at and above `idx` (`n >>> idx`). -/
theorem countOnes_split (idx n : Nat) :
    countOnes n = countOnes (n % 2 ^ idx) + countOnes (n >>> idx) := by
  induction idx generalizing n with
  | zero =>
    simp [Nat.mod_one, countOnes_zero, Nat.shiftRight_zero]
  | succ idx ih =>
    have h1 : n >>> (idx + 1) = (n / 2) >>> idx := by
      simp [Nat.shiftRight_succ_inside, Nat.shiftRight_one]
    have h2 : n % 2 ^ (idx + 1) % 2 = n % 2 :=
      Nat.mod_mod_of_dvd n (by simp [Nat.pow_succ, Nat.dvd_mul_left])
    have h3 : n % 2 ^ (idx + 1) / 2 = n / 2 % 2 ^ idx := by
      rw [Nat.pow_succ, Nat.mul_comm, Nat.mod_mul_right_div_self]
    rw [countOnes_unfold n, ih (n / 2), countOnes_unfold (n % 2 ^ (idx + 1)),
      h1, h2, h3]
    omega

/-- A set presence bit at `idx` contributes at least one to the bits
at and above `idx`. -/
theorem countOnes_shiftRight_pos {T : Type} (s : Sparse T) (idx : Nat)
    (hc : s.contains idx = true) : 1 ≤ countOnes (s.index >>> idx) := by
  have h : (s.index >>> idx) % 2 = 1 := by
    have := hc
    simp only [Sparse.contains, decide_eq_true_eq, Nat.and_one_is_mod] at this
    exact this
  rw [countOnes_unfold]
  omega

/-- The operation `Sparse.insert_fresh` never changes the presence bitmap. -/
theorem insert_fresh_index {T : Type} (s : Sparse T) (idx : Nat) (elt : T) :
    (s.insert_fresh idx elt).index = s.index := rfl

/-- Any `foldl` of `insert_fresh` steps leaves the presence bitmap of
the initial container unchanged. -/
theorem foldl_insert_fresh_index {T : Type} (ops : List (Nat × T))
    (s : Sparse T) :
    (ops.foldl (fun acc p => acc.insert_fresh p.1 p.2) s).index = s.index := by
  induction ops generalizing s with
  | nil => rfl
  | cons op ops ih => rw [List.foldl_cons, ih, insert_fresh_index]

/-! ## Claims -/

/-- Claim C1 (refuted by the code; the spec itself flags the defect):
for a fresh index `idx`, `insert_fresh(idx, elt)` is claimed to set
bit `idx` so that `contains(idx)` then returns `true` and `get(idx)`
returns the element.  The source's `Sparse::insert_fresh` only splices
the element into `data` and never touches `index`: evaluating the code
at `Sparse::new().insert_fresh(5, 42)` (index `5` is not present in a
fresh container), the element is in the backing vector, but the bit is
still clear, `contains 5` is `false` and `get 5` is `none`. -/
theorem c1_insert_fresh_never_sets_presence_bit :
    ((Sparse.new : Sparse Nat).contains 5 = false) ∧
    ((Sparse.new.insert_fresh 5 (42 : Nat)).data = [42]) ∧
    ((Sparse.new.insert_fresh 5 (42 : Nat)).index = 0) ∧
    ((Sparse.new.insert_fresh 5 (42 : Nat)).contains 5 = false) ∧
    ((Sparse.new.insert_fresh 5 (42 : Nat)).get 5 = none) := by
  refine ⟨?_, ?_, ?_, ?_, ?_⟩ <;>
    simp [Sparse.new, Sparse.insert_fresh, Sparse.contains, Sparse.get,
      Sparse.actual, countOnes]

/-- Claim C7 (confirmed): starting from `Sparse::new()`, any sequence
of `insert_fresh` calls (arbitrary indices and elements) leaves the
presence bitmap at `0`, so `contains idx` is `false` and both
`get idx` and `get_mut idx` are `none` for every `idx`, including the
inserted ones. -/
theorem c7_bitmap_stays_zero {T : Type} (ops : List (Nat × T)) (idx : Nat) :
    ((ops.foldl (fun acc p => acc.insert_fresh p.1 p.2) Sparse.new).index = 0) ∧
    ((ops.foldl (fun acc p => acc.insert_fresh p.1 p.2) Sparse.new).contains idx
      = false) ∧
    ((ops.foldl (fun acc p => acc.insert_fresh p.1 p.2) Sparse.new).get idx
      = none) ∧
    ((ops.foldl (fun acc p => acc.insert_fresh p.1 p.2) Sparse.new).get_mut idx
      = none) := by
  have hidx : (ops.foldl (fun acc p => acc.insert_fresh p.1 p.2)
      Sparse.new).index = 0 := by
    rw [foldl_insert_fresh_index]
    rfl
  have hc : (ops.foldl (fun acc p => acc.insert_fresh p.1 p.2)
      Sparse.new).contains idx = false := by
    simp [Sparse.contains, hidx]
  refine ⟨hidx, hc, ?_, ?_⟩ <;> simp [Sparse.get, Sparse.get_mut, hc]

/-- Claim C9 (confirmed): constructing a leaf from a source byte
sequence strictly shorter than the fixed key buffer size fails
(`copy_from_slice` length mismatch, modelled as `none`) instead of
returning a leaf with residual uninitialized buffer bytes. -/
theorem c9_short_key_leaf_construction_fails {V : Type} (keySize : Nat)
    (key_bytes : List Nat) (val : V) (h : key_bytes.length < keySize) :
    leafNew keySize key_bytes val = none := by
  simp only [leafNew, ite_eq_right_iff]
  intro he
  omega

/-- Concrete instance of `c9_short_key_leaf_construction_fails`: a
3-byte source for a 4-byte key buffer. -/
theorem c9_witness : leafNew 4 [1, 2, 3] (0 : Nat) = none :=
  c9_short_key_leaf_construction_fails 4 [1, 2, 3] 0 (by simp)

/-- Claim C2 (refuted by the code): in the reachable one-leaf trie
holding only `[0x12, 0x34]`, the fresh key `k = [0x12, 0x35]` is
inserted with value `11` (returning `none`, as claimed) and then
immediately re-inserted with value `12`.  The claim demands the second
insert return `some 11` (the displaced value); the code returns `none`
— the re-insert descends to the root internal node, finds no presence
bit set (`insert_fresh` never set any), and appends a second leaf for
`k` instead of overwriting. -/
theorem c2_overwrite_after_split_returns_none :
    ((Trie.new.insert [0x12, 0x34] (10 : Nat)).1.keys = [[0x12, 0x34]]) ∧
    (((Trie.new.insert [0x12, 0x34] (10 : Nat)).1.insert
      [0x12, 0x35] 11).2 = none) ∧
    ((((Trie.new.insert [0x12, 0x34] (10 : Nat)).1.insert
      [0x12, 0x35] 11).1.insert [0x12, 0x35] 12).2 = none) ∧
    ((((Trie.new.insert [0x12, 0x34] (10 : Nat)).1.insert
      [0x12, 0x35] 11).1.insert [0x12, 0x35] 12).1.keys
      = [[0x12, 0x35], [0x12, 0x34], [0x12, 0x35]]) := by
  refine ⟨?_, ?_, ?_, ?_⟩ <;>
    simp [Trie.new, Trie.insert, Trie.keys, insertNode, splitLoop, Node.keys,
      Sparse.new, Sparse.insert_fresh, Sparse.get_mut, Sparse.contains,
      Sparse.actual, Sparse.set, countOnes, nybble]

/-- Claim C3, counterexample to the claim as stated: inserting
`[0x12, 0x34, 0, 0]` and then `[0x12, 0x35, 0, 0]` (first differing
byte `i = 1`, XOR `0x01`, so the claim predicts branch index
`2*i + 1 = 3`) produces an `Internal` root with branch index `2`, not
`3`: the source computes `i + 1` (a byte-derived index), not
`2*i + 1`. -/
theorem c3_counterexample :
    (Trie.rootBranchIndex ((Trie.new.insert [0x12, 0x34, 0, 0] (1 : Nat)).1.insert
      [0x12, 0x35, 0, 0] 2).1 = some 2) ∧
    (Trie.rootBranchIndex ((Trie.new.insert [0x12, 0x34, 0, 0] (1 : Nat)).1.insert
      [0x12, 0x35, 0, 0] 2).1 ≠ some 3) := by
  have h : Trie.rootBranchIndex ((Trie.new.insert [0x12, 0x34, 0, 0]
      (1 : Nat)).1.insert [0x12, 0x35, 0, 0] 2).1 = some 2 := by
    simp [Trie.new, Trie.insert, Trie.rootBranchIndex, insertNode, splitLoop,
      Sparse.new, Sparse.insert_fresh, Sparse.get_mut, Sparse.contains,
      Sparse.actual, Sparse.set, countOnes, nybble]
  exact ⟨h, by rw [h]; simp⟩

/-- Claim C4 (refuted by the code): from the empty trie, inserting
`[0x12, 0x34]`, then `[0x12, 0x35]`, then `[0x12, 0x34]` again yields
a tree with two distinct leaves both holding the key `[0x12, 0x34]` —
the third insert cannot find the existing leaf (no presence bit is
ever set) and appends a fresh duplicate leaf. -/
theorem c4_duplicate_leaf_keys :
    ((((Trie.new.insert [0x12, 0x34] (1 : Nat)).1.insert
      [0x12, 0x35] 2).1.insert [0x12, 0x34] 3).1.keys
      = [[0x12, 0x35], [0x12, 0x34], [0x12, 0x34]]) ∧
    ¬ ((((Trie.new.insert [0x12, 0x34] (1 : Nat)).1.insert
      [0x12, 0x35] 2).1.insert [0x12, 0x34] 3).1.keys).Nodup := by
  have h : (((Trie.new.insert [0x12, 0x34] (1 : Nat)).1.insert
      [0x12, 0x35] 2).1.insert [0x12, 0x34] 3).1.keys
      = [[0x12, 0x35], [0x12, 0x34], [0x12, 0x34]] := by
    simp [Trie.new, Trie.insert, Trie.keys, insertNode, splitLoop, Node.keys,
      Sparse.new, Sparse.insert_fresh, Sparse.get_mut, Sparse.contains,
      Sparse.actual, Sparse.set, countOnes, nybble]
  exact ⟨h, by rw [h]; decide⟩

/-- Claim C5 (refuted by the code): inserting the key set
`{[0x00, 0x00], [0x00, 0x01], [0x01, 0x00]}` in two different orders
produces structurally different trees — the root `Internal`'s branch
index is `2` for the order `(k0, k1, k2)` but `1` for the order
`(k0, k2, k1)` (both trees hold the same three leaf keys). -/
theorem c5_shape_depends_on_insertion_order :
    (Trie.rootBranchIndex (((Trie.new.insert [0x00, 0x00] (0 : Nat)).1.insert
      [0x00, 0x01] 1).1.insert [0x01, 0x00] 2).1 = some 2) ∧
    (Trie.rootBranchIndex (((Trie.new.insert [0x00, 0x00] (0 : Nat)).1.insert
      [0x01, 0x00] 2).1.insert [0x00, 0x01] 1).1 = some 1) ∧
    ((((Trie.new.insert [0x00, 0x00] (0 : Nat)).1.insert
      [0x00, 0x01] 1).1.insert [0x01, 0x00] 2).1.keys
      = [[0x00, 0x01], [0x00, 0x00], [0x01, 0x00]]) ∧
    ((((Trie.new.insert [0x00, 0x00] (0 : Nat)).1.insert
      [0x01, 0x00] 2).1.insert [0x00, 0x01] 1).1.keys
      = [[0x01, 0x00], [0x00, 0x00], [0x00, 0x01]]) := by
  refine ⟨?_, ?_, ?_, ?_⟩ <;>
    simp [Trie.new, Trie.insert, Trie.keys, Trie.rootBranchIndex, insertNode,
      splitLoop, Node.keys, Sparse.new, Sparse.insert_fresh, Sparse.get_mut,
      Sparse.contains, Sparse.actual, Sparse.set, countOnes, nybble]

/-- Claim C6 (refuted by the code): inserting the one-byte keys
`[0x01]` and `[0x02]` creates an `Internal` root with branch index `1`
whose two leaves hold keys that already differ at nybble index `0 < 1`
(`nybble 0 [0x01] = 1` vs `nybble 0 [0x02] = 2`) — the prefix
invariant fails in a state reachable by two inserts, because the split
computes `i + 1 = 1` instead of a true first-differing-nybble
index. -/
theorem c6_prefix_invariant_fails :
    (Trie.rootBranchIndex ((Trie.new.insert [0x01] (1 : Nat)).1.insert
      [0x02] 2).1 = some 1) ∧
    (((Trie.new.insert [0x01] (1 : Nat)).1.insert [0x02] 2).1.keys
      = [[0x02], [0x01]]) ∧
    (nybble 0 [0x01] ≠ nybble 0 [0x02]) ∧
    (Trie.wellFormed ((Trie.new.insert [0x01] (1 : Nat)).1.insert
      [0x02] 2).1 = false) := by
  refine ⟨?_, ?_, ?_, ?_⟩ <;>
    (simp [Trie.new, Trie.insert, Trie.keys, Trie.rootBranchIndex,
      Trie.wellFormed, insertNode, splitLoop, Node.keys, Node.prefixInvariant,
      Sparse.new, Sparse.insert_fresh, Sparse.get_mut, Sparse.contains,
      Sparse.actual, Sparse.set, countOnes, nybble, List.range,
      List.range.loop] <;> decide)

/-- Claim C8 (confirmed): in any `Sparse` state whose dense vector
length equals the bitmap's popcount, a present index is fetched from
dense position `countOnes (index % 2 ^ idx)` — the number of set bits
strictly below `idx` — and that position is in range.  The source
computes it as `data.len() - (index >> idx).count_ones()`, which
equals the below-`idx` rank exactly under the stated length
invariant. -/
theorem c8_get_reads_rank_position {T : Type} (s : Sparse T) (idx : Nat)
    (hlen : s.data.length = countOnes s.index)
    (hc : s.contains idx = true) :
    s.get idx = s.data.get? (countOnes (s.index % 2 ^ idx)) ∧
    countOnes (s.index % 2 ^ idx) < s.data.length := by
  have hsplit := countOnes_split idx s.index
  have hpos := countOnes_shiftRight_pos s idx hc
  have hact : s.actual idx = countOnes (s.index % 2 ^ idx) := by
    simp only [Sparse.actual]
    omega
  refine ⟨?_, by omega⟩
  simp [Sparse.get, hc, hact]

/-- Concrete instance of `c8_get_reads_rank_position`: bitmap
`0b101`, dense vector `[10, 20]`, index `2` (rank below is `1`, so the
element is `20`). -/
theorem c8_witness :
    (Sparse.mk 5 [10, 20] : Sparse Nat).get 2
      = (Sparse.mk 5 [10, 20] : Sparse Nat).data.get?
        (countOnes ((Sparse.mk 5 [10, 20] : Sparse Nat).index % 2 ^ 2)) ∧
    countOnes ((Sparse.mk 5 [10, 20] : Sparse Nat).index % 2 ^ 2)
      < (Sparse.mk 5 [10, 20] : Sparse Nat).data.length :=
  c8_get_reads_rank_position (Sparse.mk 5 [10, 20]) 2
    (by simp [countOnes]) (by decide)

/-- The comparison loop run from any start position `j` at or below
the first differing byte position `i` stops at `i` and reports
`i + 1` when the XOR is confined to the low nybble (`& 0xF0 == 0`),
else `i`. -/
theorem splitLoop_first_difference (s l : List Nat) (i : Nat) (d j : Nat)
    (hj : j ≤ i) (hd : i - j = d) (hi : i < min s.length l.length)
    (hag : ∀ a, j ≤ a → a < i → s.getD a 0 = l.getD a 0)
    (hdiff : s.getD i 0 ≠ l.getD i 0) :
    splitLoop s l (min s.length l.length) j
      = some (if (s.getD i 0 ^^^ l.getD i 0) &&& 0xF0 = 0 then i + 1 else i) := by
  induction d generalizing j with
  | zero =>
    have hji : j = i := by omega
    subst hji
    rw [splitLoop.eq_def]
    have h1 : ¬ j ≥ min s.length l.length := by omega
    have h2 : s.getD j 0 ^^^ l.getD j 0 ≠ 0 := by
      rw [Ne, Nat.xor_eq_zero]
      exact hdiff
    rw [if_neg h1]
    dsimp only
    rw [if_pos h2]
  | succ d ih =>
    have hjlt : j < i := by omega
    rw [splitLoop.eq_def]
    have h1 : ¬ j ≥ min s.length l.length := by omega
    have h2 : s.getD j 0 ^^^ l.getD j 0 = 0 :=
      Nat.xor_eq_zero.mpr (hag j le_rfl hjlt)
    rw [if_neg h1]
    dsimp only
    rw [if_neg (by simp only [ne_eq, not_not]; exact h2)]
    exact ih (j + 1) (by omega) (by omega)
      (fun a ha1 ha2 => hag a (by omega) ha2)

/-- Claim C3 as amended (proved): when insertion into a trie whose
root is a leaf reaches that leaf and the first differing byte of the
search key and the leaf key is at byte position `i` with nonzero XOR,
the index used as the new `Internal` node's branch index is `i + 1` if
`(xor & 0xF0) == 0` and `i` otherwise (so for
`[0x12, 0x34, 0, 0]` vs `[0x12, 0x35, 0, 0]` the branch index is `2`,
not the claimed `2*i + 1 = 3`); the new internal holds the new leaf
and then the displaced one in its dense vector, with no presence
bits. -/
theorem c3_amended_branch_index {V : Type} (leaf_key search_key : List Nat)
    (v1 v2 : V) (i : Nat)
    (hi : i < min search_key.length leaf_key.length)
    (hagree : ∀ a, a < i → search_key.getD a 0 = leaf_key.getD a 0)
    (hdiff : search_key.getD i 0 ≠ leaf_key.getD i 0) :
    (Trie.insert { root := some (Node.leaf leaf_key v1) } search_key v2).1.root
      = some (Node.internal
        (if (search_key.getD i 0 ^^^ leaf_key.getD i 0) &&& 0xF0 = 0
          then i + 1 else i)
        { index := 0,
          data := [Node.leaf search_key v2, Node.leaf leaf_key v1] }) := by
  have hsplit := splitLoop_first_difference search_key leaf_key i i 0
    (by omega) (by omega) hi (fun a _ h2 => hagree a h2) hdiff
  simp only [Trie.insert, insertNode, hsplit]
  simp [Sparse.new, Sparse.insert_fresh, Sparse.actual, countOnes_zero,
    Nat.zero_shiftRight, List.insertIdx_zero, List.insertIdx_succ_cons]

/-- Concrete instance of `c3_amended_branch_index` at the claim's own
example: inserting `[0x12, 0x35, 0, 0]` into the trie holding
`[0x12, 0x34, 0, 0]` yields a root `Internal` with branch index `2`. -/
theorem c3_amended_witness :
    (Trie.insert { root := some (Node.leaf [0x12, 0x34, 0, 0] (1 : Nat)) }
      [0x12, 0x35, 0, 0] 2).1.root
      = some (Node.internal 2
        { index := 0,
          data := [Node.leaf [0x12, 0x35, 0, 0] 2,
                   Node.leaf [0x12, 0x34, 0, 0] 1] }) := by
  have h := c3_amended_branch_index [0x12, 0x34, 0, 0] [0x12, 0x35, 0, 0]
    (1 : Nat) 2 1 (by simp)
    (by intro a ha; interval_cases a; rfl)
    (by simp)
  simpa using h

/-- Claim C10 (confirmed): the descent of `get_closest_node_mut`
terminates on every finite trie and search key — `getClosestNode` is a
total function (its recursion is on strict subterms of the finite
tree), and the node it stops at is always either a `Leaf` or an
`Internal` node with no child at the search key's nybble for that
node's branch index. -/
theorem c10_descent_reaches_leaf_or_missing_child {V : Type} (n : Node V)
    (key : List Nat) (index : Nat) :
    (∃ k v, (n.getClosestNode key index).1 = Node.leaf k v) ∨
    (∃ i nyb, (n.getClosestNode key index).1 = Node.internal i nyb ∧
      nyb.get_mut (nybble i key) = none) := by
  induction n, key, index using Node.getClosestNode.induct with
  | case1 key index k v =>
    left
    exact ⟨k, v, by rw [Node.getClosestNode]⟩
  | case2 key index i nyb child h ih =>
    rw [Node.getClosestNode]
    split
    next child2 heq =>
      rw [h] at heq
      injection heq with heq2
      subst heq2
      exact ih
    next heq =>
      rw [h] at heq
      exact Option.noConfusion heq
  | case3 key index i nyb h =>
    right
    refine ⟨i, nyb, ?_, h⟩
    rw [Node.getClosestNode]
    split
    next child heq =>
      rw [h] at heq
      exact Option.noConfusion heq
    next => rfl

end QpTrie
